import Mathlib

/-!
Shallow embedding of the magic-array library (src/unnamed/part_000): a live
item list with optional admission validation, a linear undo/redo history of
full snapshots, per-entry checkpoints, and subscriber notifications.

Modelling conventions:
- JavaScript arrays become Lean lists; in-place mutation becomes functional
  update of the state record.
- The source aliases the live `items` array with a history entry after
  `jump`/`goTo` (assignment without copy).  Object identity of the live
  array is tracked by the `liveAlias` field: `some j` means the live items
  array IS the array stored in history entry `j`, so an in-place mutation
  of the live items also rewrites that entry.  Operations that reassign the
  `items` variable to a fresh copy (`undo`, `redo`, `restoreCheckpoint`)
  clear the alias; `jump`/`goTo` set it.  New history entries and
  checkpoints are always fresh copies in the source, so no other aliasing
  can arise.
- Operations that index `history` with a possibly invalid index return
  `Option`, `none` standing for the JavaScript TypeError thrown when
  reading a property of `undefined`.  (State changes made before the throw
  are not modelled; no claim exercises a throwing path.)
- Listener callbacks cannot change the state; a notification is modelled
  as the emitted event tag.  History operations therefore return the list
  of event tags passed to `notifySubscribers`.
- `toJSON`/`import` serialize via `JSON.stringify`/`JSON.parse`, modelled
  as the identity on the history value (faithful for JSON-representable
  element types).
-/

namespace MagicArray

/-- Checkpoint record: `{ label?: string; items: T[] }` from the source. -/
structure Checkpoint (T : Type) where
  label : Option String
  items : List T
deriving DecidableEq, Repr

/-- History entry record: `{ items: T[]; checkpoints: Checkpoint<T>[] }`. -/
structure HistoryEntry (T : Type) where
  items : List T
  checkpoints : List (Checkpoint T)
deriving DecidableEq, Repr

/-- Closure state of one `magicArray` instance: the live `items` array, the
`history` array, the `historyIndex` cursor (an Int: the source can drive it
to -1), the mutable `validationFn`, and the alias tracking described in the
file header. -/
structure MagicState (T : Type) where
  items : List T
  history : List (HistoryEntry T)
  historyIndex : Int
  validationFn : Option (T → Bool)
  liveAlias : Option Nat

/-- Constructor: `items = [...initialItems]`, one initial history entry
holding a copy of the items with no checkpoints, cursor 0. -/
def init {T : Type} (initialItems : List T) (validationFn : Option (T → Bool)) :
    MagicState T :=
  { items := initialItems
    history := [{ items := initialItems, checkpoints := [] }]
    historyIndex := 0
    validationFn := validationFn
    liveAlias := none }

/-- ECMAScript relative-index clamp used by `splice`, `fill`, `copyWithin`:
negative values count from the end, results clamped into `[0, len]`. -/
def jsRelIndex (len : Nat) (i : Int) : Nat :=
  if i < 0 then ((len : Int) + i).toNat else min i.toNat len

/-- ECMAScript `Array.prototype.splice`: returns (removed, resulting list).
A `none` delete count means the argument was absent (delete through the
end); the source also passes `deleteCount ?? items.length - start`, which
after clamping coincides with the absent case when `deleteCount` is
undefined. -/
def jsSpliceOp {T : Type} (l : List T) (start : Int) (deleteCount : Option Int)
    (addItems : List T) : List T × List T :=
  let s := jsRelIndex l.length start
  let dcRaw := deleteCount.getD ((l.length : Int) - start)
  let dc := min dcRaw.toNat (l.length - s)
  ((l.drop s).take dc, l.take s ++ addItems ++ l.drop (s + dc))

/-- ECMAScript `Array.prototype.fill` on the model list. -/
def jsFill {T : Type} (l : List T) (v : T) (start endOpt : Option Int) : List T :=
  let s := jsRelIndex l.length (start.getD 0)
  let e := jsRelIndex l.length (endOpt.getD l.length)
  if e ≤ s then l else l.take s ++ List.replicate (e - s) v ++ l.drop e

/-- ECMAScript `Array.prototype.copyWithin` on the model list (the net
effect of the stepwise copy is copying the original slice). -/
def jsCopyWithin {T : Type} (l : List T) (target start : Int) (endOpt : Option Int) :
    List T :=
  let len := l.length
  let dst := jsRelIndex len target
  let src := jsRelIndex len start
  let fin := jsRelIndex len (endOpt.getD len)
  let count := min (fin - src) (len - dst)
  l.take dst ++ (l.drop src).take count ++ l.drop (dst + count)

/-- Stable comparator sort standing for `Array.prototype.sort(compareFn)`. -/
def jsSort {T : Type} (cmp : T → T → Int) (l : List T) : List T :=
  l.mergeSort (fun a b => cmp a b ≤ 0)

/-- The nine methods the source wraps with `updateHistory` (the
`mutatingMethods` list).  `batchPush` is deliberately absent: the source
does not wrap it. -/
inductive Mutation (T : Type) where
  | push (xs : List T)
  | pop
  | shift
  | unshift (xs : List T)
  | splice (start : Int) (deleteCount : Option Int) (addItems : List T)
  | reverse
  | sort (cmp : T → T → Int)
  | fill (v : T) (start endOpt : Option Int)
  | copyWithin (target start : Int) (endOpt : Option Int)

/-- Value of the live items array after the raw (unwrapped) mutation.
`push` filters through `validationFn` when it is set; `unshift` does not
validate, matching the source. -/
def rawNewItems {T : Type} (m : Mutation T) (validationFn : Option (T → Bool))
    (items : List T) : List T :=
  match m with
  | .push xs =>
      items ++ (match validationFn with | some f => xs.filter f | none => xs)
  | .pop => items.dropLast
  | .shift => items.tail
  | .unshift xs => xs ++ items
  | .splice s dc add => (jsSpliceOp items s dc add).2
  | .reverse => items.reverse
  | .sort cmp => jsSort cmp items
  | .fill v s e => jsFill items v s e
  | .copyWithin t s e => jsCopyWithin items t s e

/-- In-place mutation of the live items array: the live list is replaced,
and if the live array is aliased with history entry `j` (after `jump` or
`goTo`), that entry sees the same mutation. -/
def writeThrough {T : Type} (s : MagicState T) (newItems : List T) : MagicState T :=
  { s with
    items := newItems
    history :=
      match s.liveAlias with
      | some j =>
          match s.history.get? j with
          | some e => s.history.set j { e with items := newItems }
          | none => s.history
      | none => s.history }

/-- One unwrapped mutating method call (mutation of `items` plus the
write-through to an aliased entry; the `notifyListeners` callback round is
not part of the state). -/
def applyRaw {T : Type} (m : Mutation T) (s : MagicState T) : MagicState T :=
  writeThrough s (rawNewItems m s.validationFn s.items)

/-- The `updateHistory` closure: `history.splice(historyIndex + 1)` (drop
the future), push a fresh entry copying the live items with no
checkpoints, and point the cursor at the new last index.  An aliased entry
that gets truncated away leaves the live array unaliased. -/
def updateHistory {T : Type} (s : MagicState T) : MagicState T :=
  let kept := jsRelIndex s.history.length (s.historyIndex + 1)
  let newHistory := s.history.take kept ++ [{ items := s.items, checkpoints := [] }]
  { s with
    history := newHistory
    historyIndex := (newHistory.length : Int) - 1
    liveAlias := s.liveAlias.bind (fun j => if j < kept then some j else none) }

/-- A wrapped mutating method: the original method body runs, then
`updateHistory` records the resulting state. -/
def applyWrapped {T : Type} (m : Mutation T) (s : MagicState T) : MagicState T :=
  updateHistory (applyRaw m s)

/-- The `batchPush` method: validation filter plus append, `batchAdd`
notification, and NO `updateHistory` call (it is missing from the
`mutatingMethods` wrapper list in the source). -/
def batchPush {T : Type} (xs : List T) (s : MagicState T) : MagicState T :=
  writeThrough s
    (s.items ++ (match s.validationFn with | some f => xs.filter f | none => xs))

/-- The `setValidation` method. -/
def setValidation {T : Type} (f : T → Bool) (s : MagicState T) : MagicState T :=
  { s with validationFn := some f }

/-- The `getItems` method: a copy of the live items (copying is the
identity on list values). -/
def getItems {T : Type} (s : MagicState T) : List T :=
  s.items

/-- Reading `history[i]` with a JavaScript index: negative or past-the-end
indices give `undefined`, modelled as `none`. -/
def entryAt {T : Type} (s : MagicState T) (i : Int) : Option (HistoryEntry T) :=
  if i < 0 then none else s.history.get? i.toNat

/-- The `previous` history action: move the cursor back when possible and
return the snapshot there, otherwise return the live items; the cursor and
the returned list are paired with the emitted events. -/
def previous {T : Type} (s : MagicState T) :
    Option (MagicState T × List T × List String) :=
  if 0 < s.historyIndex then
    match entryAt s (s.historyIndex - 1) with
    | some e =>
        some ({ s with historyIndex := s.historyIndex - 1 }, e.items, ["previous"])
    | none => none
  else
    some (s, s.items, ["previous"])

/-- The `next` history action, mirror image of `previous`. -/
def next {T : Type} (s : MagicState T) :
    Option (MagicState T × List T × List String) :=
  if s.historyIndex < (s.history.length : Int) - 1 then
    match entryAt s (s.historyIndex + 1) with
    | some e =>
        some ({ s with historyIndex := s.historyIndex + 1 }, e.items, ["next"])
    | none => none
  else
    some (s, s.items, ["next"])

/-- The `clean` history action: `history.length = 1`, cursor 0. -/
def clean {T : Type} (s : MagicState T) : MagicState T × List String :=
  ({ s with
      history := s.history.take 1
      historyIndex := 0
      liveAlias := s.liveAlias.bind (fun j => if j = 0 then some 0 else none) },
   ["clean"])

/-- The `goTo` history action: set the cursor and assign the live items
variable to the entry array itself, WITHOUT copying — the live array is
now aliased with that entry. -/
def goTo {T : Type} (index : Int) (s : MagicState T) :
    Option (MagicState T × List T × List String) :=
  match entryAt s index with
  | some e =>
      some ({ s with
                historyIndex := index
                items := e.items
                liveAlias := some index.toNat },
            e.items, ["goTo"])
  | none => none

/-- The `jump` history action: relative variant of `goTo`, same aliasing. -/
def jump {T : Type} (n : Int) (s : MagicState T) :
    Option (MagicState T × List T × List String) :=
  match entryAt s (s.historyIndex + n) with
  | some e =>
      some ({ s with
                historyIndex := s.historyIndex + n
                items := e.items
                liveAlias := some (s.historyIndex + n).toNat },
            e.items, ["jump"])
  | none => none

/-- The `saveCheckpoint` history action: append a labelled copy of the live
items to the checkpoints of the current entry. -/
def saveCheckpoint {T : Type} (label : Option String) (s : MagicState T) :
    Option (MagicState T × List String) :=
  match entryAt s s.historyIndex with
  | some e =>
      let e2 : HistoryEntry T :=
        { e with checkpoints :=
            e.checkpoints ++ [{ label := label, items := s.items }] }
      some ({ s with history := s.history.set s.historyIndex.toNat e2 },
            ["saveCheckpoint"])
  | none => none

/-- The `removeCheckpoint` history action: drop the first checkpoint of the
current entry whose label matches; when none matches, nothing happens and
nothing is emitted. -/
def removeCheckpoint {T : Type} (label : String) (s : MagicState T) :
    Option (MagicState T × List String) :=
  match entryAt s s.historyIndex with
  | some e =>
      match e.checkpoints.findIdx? (fun cp => cp.label == some label) with
      | some ci =>
          let e2 : HistoryEntry T := { e with checkpoints := e.checkpoints.eraseIdx ci }
          some ({ s with history := s.history.set s.historyIndex.toNat e2 },
                ["removeCheckpoint"])
      | none => some (s, [])
  | none => none

/-- The `restoreCheckpoint` history action: when the label is found in the
current entry, the live items become a fresh copy of the checkpoint items;
the source calls `notifySubscribers` UNCONDITIONALLY, so the event is
emitted even when the label is unknown. -/
def restoreCheckpoint {T : Type} (label : String) (s : MagicState T) :
    Option (MagicState T × List String) :=
  match entryAt s s.historyIndex with
  | some e =>
      match e.checkpoints.find? (fun cp => cp.label == some label) with
      | some cp =>
          some ({ s with items := cp.items, liveAlias := none },
                ["restoreCheckpoint"])
      | none => some (s, ["restoreCheckpoint"])
  | none => none

/-- The `listCheckpoints` history action. -/
def listCheckpoints {T : Type} (s : MagicState T) : Option (List (Checkpoint T)) :=
  (entryAt s s.historyIndex).map (fun e => e.checkpoints)

/-- The `toJSON` history action, modelled as the serialized history value
(stringify is the identity at this level). -/
def toJSON {T : Type} (s : MagicState T) : List (HistoryEntry T) :=
  s.history

/-- The `import` history action (renamed: `import` is a Lean keyword):
replace the whole history with the parsed value and point the cursor at
the last entry; the live items variable is untouched. -/
def importHistory {T : Type} (serialized : List (HistoryEntry T)) (s : MagicState T) :
    MagicState T × List String :=
  ({ s with
      history := serialized
      historyIndex := (serialized.length : Int) - 1
      liveAlias := none },
   ["import"])

/-- The `limit` history action: when `size < history.length`, drop the
oldest `history.length - size` entries and point the cursor at the new
last index, emitting `limit`; otherwise do nothing and emit nothing. -/
def limit {T : Type} (size : Int) (s : MagicState T) : MagicState T × List String :=
  if size < (s.history.length : Int) then
    let removedCount := min ((s.history.length : Int) - size).toNat s.history.length
    let newHistory := s.history.drop removedCount
    ({ s with
        history := newHistory
        historyIndex := (newHistory.length : Int) - 1
        liveAlias := s.liveAlias.bind
          (fun j => if removedCount ≤ j then some (j - removedCount) else none) },
     ["limit"])
  else
    (s, [])

/-- Fueled helper for the `undo` while loop; the fuel bounds the number of
iterations (the cursor strictly decreases while positive). -/
def undoStepsGo (times idx : Int) : Nat → Int
  | 0 => idx
  | fuel + 1 =>
      if times ≠ 0 ∧ 0 < idx then undoStepsGo (times - 1) (idx - 1) fuel else idx

/-- Final cursor of the `undo` while loop
`while (times-- && historyIndex > 0) historyIndex--`. -/
def undoSteps (times idx : Int) : Int :=
  undoStepsGo times idx idx.toNat

/-- The defining loop equation of `undoSteps`. -/
theorem undoSteps_eq (times idx : Int) :
    undoSteps times idx
      = if times ≠ 0 ∧ 0 < idx then undoSteps (times - 1) (idx - 1) else idx := by
  unfold undoSteps
  rcases h : idx.toNat with _ | n
  · have hng : ¬ (times ≠ 0 ∧ 0 < idx) := by omega
    rw [if_neg hng]
    rfl
  · rw [undoStepsGo]
    split
    · next hg =>
        have : n = (idx - 1).toNat := by omega
        rw [this]
    · rfl

/-- The `undo` history action: walk the cursor back, then set the live
items to a fresh copy of the snapshot there. -/
def undo {T : Type} (times : Int) (s : MagicState T) :
    Option (MagicState T × List String) :=
  let i := undoSteps times s.historyIndex
  match entryAt s i with
  | some e =>
      some ({ s with historyIndex := i, items := e.items, liveAlias := none },
            ["undo"])
  | none => none

/-- Fueled helper for the `redo` while loop; the fuel bounds the number of
iterations (the distance to `maxIdx` strictly decreases). -/
def redoStepsGo (times idx maxIdx : Int) : Nat → Int
  | 0 => idx
  | fuel + 1 =>
      if times ≠ 0 ∧ idx < maxIdx then redoStepsGo (times - 1) (idx + 1) maxIdx fuel
      else idx

/-- Final cursor of the `redo` while loop
`while (times-- && historyIndex < history.length - 1) historyIndex++`. -/
def redoSteps (times idx maxIdx : Int) : Int :=
  redoStepsGo times idx maxIdx (maxIdx - idx).toNat

/-- The defining loop equation of `redoSteps`. -/
theorem redoSteps_eq (times idx maxIdx : Int) :
    redoSteps times idx maxIdx
      = if times ≠ 0 ∧ idx < maxIdx then redoSteps (times - 1) (idx + 1) maxIdx
        else idx := by
  unfold redoSteps
  rcases h : (maxIdx - idx).toNat with _ | n
  · have hng : ¬ (times ≠ 0 ∧ idx < maxIdx) := by omega
    rw [if_neg hng]
    rfl
  · rw [redoStepsGo]
    split
    · next hg =>
        have : n = (maxIdx - (idx + 1)).toNat := by omega
        rw [this]
    · rfl

/-- The `redo` history action: walk the cursor forward, then set the live
items to a fresh copy of the snapshot there. -/
def redo {T : Type} (times : Int) (s : MagicState T) :
    Option (MagicState T × List String) :=
  let i := redoSteps times s.historyIndex ((s.history.length : Int) - 1)
  match entryAt s i with
  | some e =>
      some ({ s with historyIndex := i, items := e.items, liveAlias := none },
            ["redo"])
  | none => none

/-- The `hasChanges` helper:
`items.some((item, index) => item !== currentItems[index])` — it iterates
over the positions of the LIVE items only. -/
def hasChanges {T : Type} [DecidableEq T] (s : MagicState T) : Option Bool :=
  match entryAt s s.historyIndex with
  | some e =>
      some ((List.range s.items.length).any
        (fun i => decide (s.items.get? i ≠ e.items.get? i)))
  | none => none

/-- Specification-level invariant of the history store: the cursor is a
valid index into a nonempty entries list. -/
def WF {T : Type} (s : MagicState T) : Prop :=
  0 ≤ s.historyIndex ∧ s.historyIndex < (s.history.length : Int)

instance {T : Type} (s : MagicState T) : Decidable (WF s) :=
  inferInstanceAs (Decidable (0 ≤ s.historyIndex ∧ s.historyIndex < (s.history.length : Int)))

end MagicArray

namespace MagicArray

theorem take_min_length {T : Type} (l : List T) (n : Nat) :
    l.take (min n l.length) = l.take n := by
  rcases le_total n l.length with h | h
  · rw [min_eq_left h]
  · rw [min_eq_right h, List.take_length, List.take_of_length_le h]

/-- Unfolding of `updateHistory` for a nonnegative cursor: drop the future,
append a copy of the live items with no checkpoints, cursor to the end. -/
theorem updateHistory_spec {T : Type} (s : MagicState T) (h : 0 ≤ s.historyIndex) :
    (updateHistory s).history
        = s.history.take (s.historyIndex + 1).toNat
            ++ [{ items := s.items, checkpoints := [] }]
      ∧ (updateHistory s).items = s.items
      ∧ (updateHistory s).historyIndex = ((updateHistory s).history.length : Int) - 1 := by
  have hneg : ¬ (s.historyIndex + 1 < 0) := by omega
  refine ⟨?_, rfl, ?_⟩
  · simp only [updateHistory, jsRelIndex, if_neg hneg, take_min_length]
  · simp only [updateHistory, jsRelIndex, if_neg hneg, take_min_length]

/-- The recording step always reestablishes the cursor invariant. -/
theorem updateHistory_WF {T : Type} (t : MagicState T) (h : 0 ≤ t.historyIndex) :
    WF (updateHistory t) := by
  obtain ⟨hh, -, hi⟩ := updateHistory_spec t h
  unfold WF
  rw [hi, hh]
  simp only [List.length_append, List.length_cons, List.length_nil]
  omega

theorem entryAt_eq_some {T : Type} (s : MagicState T) (i : Int) (h0 : 0 ≤ i)
    (h1 : i < (s.history.length : Int)) :
    ∃ e, entryAt s i = some e ∧ s.history.get? i.toNat = some e := by
  have hn : i.toNat < s.history.length := by omega
  refine ⟨s.history.get ⟨i.toNat, hn⟩, ?_, List.get?_eq_get hn⟩
  unfold entryAt
  rw [if_neg (by omega), List.get?_eq_get hn]

/-- C1 counterexample: `limit(0)` on a fresh instance removes every entry
and drives the cursor to -1, so the invariant fails at `size = 0`. -/
theorem limit_zero_empties_history :
    (limit 0 (init ([] : List Nat) none)).1.history = []
    ∧ (limit 0 (init ([] : List Nat) none)).1.historyIndex = -1
    ∧ ¬ WF (limit 0 (init ([] : List Nat) none)).1 :=
  ⟨rfl, rfl, by decide⟩

/-- C1 (amended): starting from any state satisfying the invariant
`0 <= cursor < length(entries)`, the invariant still holds after `clean`,
after any wrapped mutation (whose tail is the recording step), and after
`limit(size)` for any `size >= 1` (at `size = 0` the source empties the
history, see the counterexample). -/
theorem history_invariant_preserved {T : Type} (s : MagicState T) (hWF : WF s)
    (m : Mutation T) (size : Int) (hsize : 1 ≤ size) :
    WF (clean s).1 ∧ WF (applyWrapped m s) ∧ WF (limit size s).1 := by
  obtain ⟨h0, h1⟩ := hWF
  refine ⟨?_, ?_, ?_⟩
  · simp only [WF, clean, List.length_take]
    constructor
    · omega
    · have : (0:Int) < (min 1 s.history.length : Nat) := by
        have : 1 ≤ s.history.length := by omega
        omega
      simpa using this
  · exact updateHistory_WF (applyRaw m s) h0
  · by_cases hlt : size < (s.history.length : Int)
    · simp only [WF, limit, if_pos hlt, List.length_drop]
      omega
    · simp only [WF, limit, if_neg hlt]
      exact ⟨h0, h1⟩

theorem history_invariant_preserved_witness :
    WF (clean (init ([0] : List Nat) none)).1
    ∧ WF (applyWrapped Mutation.pop (init ([0] : List Nat) none))
    ∧ WF (limit 1 (init ([0] : List Nat) none)).1 :=
  history_invariant_preserved (init [0] none) (by decide) Mutation.pop 1 (by decide)

end MagicArray

namespace MagicArray

/-- C2 counterexample: `batchPush` mutates the live items but is not in the
`mutatingMethods` wrapper list, so no recording step runs: the history
still holds only the initial entry, whose snapshot differs from the items. -/
theorem batchPush_records_no_entry :
    (batchPush [1] (init ([] : List Nat) none)).history
        = [{ items := [], checkpoints := [] }]
    ∧ (batchPush [1] (init ([] : List Nat) none)).items = [1] :=
  ⟨rfl, rfl⟩

/-- C2 (amended): every mutating method in the wrapper list (single append
`push`, `pop`, `shift`, `unshift`, `splice`, `reverse`, `sort`, `fill`,
`copyWithin`) triggers the recording step before returning: entries are
truncated to `cursor+1` (as mutated by any alias write-through), a fresh
entry copying the resulting live items with empty checkpoints is appended,
and the cursor lands on the new last index.  Batch append (`batchPush`)
does NOT record (see the counterexample). -/
theorem wrapped_mutation_records_entry {T : Type} (s : MagicState T) (hWF : WF s)
    (m : Mutation T) :
    (applyWrapped m s).history
        = (applyRaw m s).history.take (s.historyIndex + 1).toNat
            ++ [{ items := (applyRaw m s).items, checkpoints := [] }]
    ∧ (applyWrapped m s).items = (applyRaw m s).items
    ∧ (applyWrapped m s).historyIndex = ((applyWrapped m s).history.length : Int) - 1 := by
  have h0 : (0:Int) ≤ (applyRaw m s).historyIndex := hWF.1
  obtain ⟨hh, hit, hi⟩ := updateHistory_spec (applyRaw m s) h0
  exact ⟨hh, hit, hi⟩

theorem wrapped_mutation_records_entry_witness :
    (applyWrapped Mutation.pop (init ([5] : List Nat) none)).history
        = (applyRaw Mutation.pop (init ([5] : List Nat) none)).history.take
            ((init ([5] : List Nat) none).historyIndex + 1).toNat
            ++ [{ items := (applyRaw Mutation.pop (init ([5] : List Nat) none)).items,
                  checkpoints := [] }]
    ∧ (applyWrapped Mutation.pop (init ([5] : List Nat) none)).items
        = (applyRaw Mutation.pop (init ([5] : List Nat) none)).items
    ∧ (applyWrapped Mutation.pop (init ([5] : List Nat) none)).historyIndex
        = ((applyWrapped Mutation.pop (init ([5] : List Nat) none)).history.length : Int) - 1 :=
  wrapped_mutation_records_entry (init [5] none) (by decide) Mutation.pop

/-- C4 (amended): `import(toJSON())` restores the entries array exactly
(element-wise, checkpoints included) and leaves the live items untouched,
but it always resets the cursor to the last index, so the cursor equals
its pre-export value only when it already was at the last entry. -/
theorem import_toJSON_roundtrip {T : Type} (s : MagicState T) :
    (importHistory (toJSON s) s).1.history = s.history
    ∧ (importHistory (toJSON s) s).1.historyIndex = (s.history.length : Int) - 1
    ∧ (importHistory (toJSON s) s).1.items = s.items :=
  ⟨rfl, rfl, rfl⟩

/-- C4 counterexample: push then undo leaves the cursor at 0 in a
two-entry history; after `import(toJSON())` the cursor is 1, not the
pre-export 0, so the round trip does not restore the exact state. -/
theorem import_toJSON_resets_cursor :
    ((undo 1 (applyWrapped (Mutation.push [2]) (init ([1] : List Nat) none))).map
      (fun p => ((importHistory (toJSON p.1) p.1).1.historyIndex, p.1.historyIndex)))
      = some (1, 0) :=
  rfl

/-- C5: evaluation of the source at the failing input
`create([1]); push(2); goTo(0); push(3)`.  Before the final mutation the
snapshot of entry 0 is `[1]`; `goTo` assigned the live items variable to
that very entry array without copying, so the in-place `push(3)` rewrites
the past snapshot to `[1, 3]` — the claimed contract is violated by the
code. -/
theorem goTo_alias_mutates_past_snapshot :
    ((goTo 0 (applyWrapped (Mutation.push [2]) (init ([1] : List Nat) none))).map
      (fun p => p.1.history.head?.map (fun e => e.items))) = some (some [1])
    ∧ ((goTo 0 (applyWrapped (Mutation.push [2]) (init ([1] : List Nat) none))).map
      (fun p => (applyWrapped (Mutation.push [3]) p.1).history.head?.map
        (fun e => e.items))) = some (some [1, 3]) :=
  ⟨rfl, rfl⟩

end MagicArray

namespace MagicArray

theorem findIdx?_eq_none_of_all {α : Type} (p : α → Bool) :
    ∀ (l : List α) (i : Nat), (∀ x ∈ l, p x = false) → l.findIdx? p i = none := by
  intro l
  induction l with
  | nil => intro i _; exact List.findIdx?_nil
  | cons a l ih =>
      intro i h
      rw [List.findIdx?_cons, if_neg (by simp [h a (by simp)])]
      exact ih (i + 1) (fun x hx => h x (by simp [hx]))

/-- C8 (amended): with an unknown label in the current entry,
`removeCheckpoint` is a true no-op — state unchanged and nothing emitted —
while `restoreCheckpoint` leaves the live items, the entries, and the
cursor unchanged but STILL notifies listeners with a `restoreCheckpoint`
event (the source notifies outside the found-branch). -/
theorem checkpoint_unknown_label {T : Type} (s : MagicState T) (e : HistoryEntry T)
    (he : entryAt s s.historyIndex = some e) (l : String)
    (habs : ∀ cp ∈ e.checkpoints, cp.label ≠ some l) :
    removeCheckpoint l s = some (s, [])
    ∧ restoreCheckpoint l s = some (s, ["restoreCheckpoint"]) := by
  have hfalse : ∀ cp ∈ e.checkpoints, (cp.label == some l) = false := by
    intro cp hcp
    exact beq_eq_false_iff_ne.2 (habs cp hcp)
  have hidx : List.findIdx? (fun cp => cp.label == some l) e.checkpoints = none :=
    findIdx?_eq_none_of_all _ _ 0 hfalse
  have hfind : List.find? (fun cp => cp.label == some l) e.checkpoints = none :=
    List.find?_eq_none.2 (fun cp hcp => by simp [hfalse cp hcp])
  constructor
  · simp only [removeCheckpoint, he, hidx]
  · simp only [restoreCheckpoint, he, hfind]

theorem checkpoint_unknown_label_witness :
    removeCheckpoint "x" (init ([1] : List Nat) none)
        = some (init ([1] : List Nat) none, [])
    ∧ restoreCheckpoint "x" (init ([1] : List Nat) none)
        = some (init ([1] : List Nat) none, ["restoreCheckpoint"]) :=
  checkpoint_unknown_label (init [1] none) { items := [1], checkpoints := [] }
    rfl "x" (by simp)

/-- C8 counterexample: restoring an unknown label does emit the
`restoreCheckpoint` event to every listener — the claim says no listener
is notified. -/
theorem restore_unknown_still_notifies :
    (restoreCheckpoint "x" (init ([1] : List Nat) none)).map (fun p => p.2)
      = some ["restoreCheckpoint"] :=
  rfl

/-- C9: on a history of length `n`, `limit(k)` with `0 < k < n` keeps
exactly the `k` most recent entries in their original relative order with
the cursor on the new last index and emits `limit`; with `k >= n` nothing
changes and nothing is emitted. -/
theorem limit_keeps_recent_entries {T : Type} (s : MagicState T) (k : Int) :
    (0 < k → k < (s.history.length : Int) →
      (limit k s).1.history = s.history.drop (s.history.length - k.toNat)
      ∧ (limit k s).1.historyIndex = k - 1
      ∧ (limit k s).2 = ["limit"])
    ∧ ((s.history.length : Int) ≤ k → limit k s = (s, [])) := by
  constructor
  · intro hk hlt
    have hrm : min ((s.history.length : Int) - k).toNat s.history.length
        = s.history.length - k.toNat := by omega
    refine ⟨?_, ?_, ?_⟩
    · simp only [limit, if_pos hlt, hrm]
    · simp only [limit, if_pos hlt, hrm, List.length_drop]
      omega
    · simp only [limit, if_pos hlt]
  · intro hge
    simp only [limit, if_neg (by omega : ¬ k < (s.history.length : Int))]

theorem limit_keeps_recent_entries_witness :
    ((limit 1 (applyWrapped (Mutation.push [2]) (init ([1] : List Nat) none))).1.history
        = (applyWrapped (Mutation.push [2]) (init ([1] : List Nat) none)).history.drop
            ((applyWrapped (Mutation.push [2]) (init ([1] : List Nat) none)).history.length
              - (1 : Int).toNat)
      ∧ (limit 1 (applyWrapped (Mutation.push [2]) (init ([1] : List Nat) none))).1.historyIndex
          = 1 - 1
      ∧ (limit 1 (applyWrapped (Mutation.push [2]) (init ([1] : List Nat) none))).2
          = ["limit"])
    ∧ limit 5 (applyWrapped (Mutation.push [2]) (init ([1] : List Nat) none))
        = (applyWrapped (Mutation.push [2]) (init ([1] : List Nat) none), []) :=
  ⟨(limit_keeps_recent_entries (applyWrapped (Mutation.push [2]) (init [1] none)) 1).1
      (by decide) (by decide),
   (limit_keeps_recent_entries (applyWrapped (Mutation.push [2]) (init [1] none)) 5).2
      (by decide)⟩

end MagicArray

namespace MagicArray

theorem previous_spec {T : Type} (s : MagicState T) (hWF : WF s) :
    (0 < s.historyIndex →
      ∃ e, entryAt s (s.historyIndex - 1) = some e
        ∧ previous s
            = some ({ s with historyIndex := s.historyIndex - 1 }, e.items,
                    ["previous"]))
    ∧ (s.historyIndex ≤ 0 → previous s = some (s, s.items, ["previous"])) := by
  obtain ⟨h0, h1⟩ := hWF
  constructor
  · intro hp
    obtain ⟨e, he, -⟩ := entryAt_eq_some s (s.historyIndex - 1) (by omega) (by omega)
    refine ⟨e, he, ?_⟩
    simp only [previous, if_pos hp, he]
  · intro hp
    simp only [previous, if_neg (by omega : ¬ 0 < s.historyIndex)]

theorem next_spec {T : Type} (s : MagicState T) (hWF : WF s) :
    (s.historyIndex < (s.history.length : Int) - 1 →
      ∃ e, entryAt s (s.historyIndex + 1) = some e
        ∧ next s
            = some ({ s with historyIndex := s.historyIndex + 1 }, e.items, ["next"]))
    ∧ ((s.history.length : Int) - 1 ≤ s.historyIndex →
        next s = some (s, s.items, ["next"])) := by
  obtain ⟨h0, h1⟩ := hWF
  constructor
  · intro hp
    obtain ⟨e, he, -⟩ := entryAt_eq_some s (s.historyIndex + 1) (by omega) (by omega)
    refine ⟨e, he, ?_⟩
    simp only [next, if_pos hp, he]
  · intro hp
    simp only [next,
      if_neg (by omega : ¬ s.historyIndex < (s.history.length : Int) - 1)]

/-- C10: `previous` and `next` never touch the live items — `getItems`
returns the same list before and after — and they never change the entries;
they move the cursor one step when not already at the boundary (returning
the snapshot at the new cursor) and keep it in place at the boundary
(returning the live items). -/
theorem previous_next_preserve_items {T : Type} (s : MagicState T) (hWF : WF s) :
    ((previous s).map (fun p => getItems p.1) = some (getItems s))
    ∧ ((next s).map (fun p => getItems p.1) = some (getItems s))
    ∧ ((previous s).map (fun p => p.1.history) = some s.history)
    ∧ ((next s).map (fun p => p.1.history) = some s.history)
    ∧ ((previous s).map (fun p => p.1.historyIndex)
        = some (if 0 < s.historyIndex then s.historyIndex - 1 else s.historyIndex))
    ∧ ((next s).map (fun p => p.1.historyIndex)
        = some (if s.historyIndex < (s.history.length : Int) - 1 then
                  s.historyIndex + 1
                else s.historyIndex))
    ∧ ((previous s).map (fun p => some p.2.1)
        = some (if 0 < s.historyIndex then
                  (entryAt s (s.historyIndex - 1)).map (fun e => e.items)
                else some s.items))
    ∧ ((next s).map (fun p => some p.2.1)
        = some (if s.historyIndex < (s.history.length : Int) - 1 then
                  (entryAt s (s.historyIndex + 1)).map (fun e => e.items)
                else some s.items)) := by
  obtain ⟨hpm, hpb⟩ := previous_spec s hWF
  obtain ⟨hnm, hnb⟩ := next_spec s hWF
  by_cases hp : 0 < s.historyIndex
  · obtain ⟨e, he, hprev⟩ := hpm hp
    by_cases hn : s.historyIndex < (s.history.length : Int) - 1
    · obtain ⟨f, hf, hnext⟩ := hnm hn
      simp [hprev, hnext, getItems, if_pos hp, if_pos hn, he, hf]
    · have hnext := hnb (by omega)
      simp [hprev, hnext, getItems, if_pos hp, if_neg hn, he]
  · have hprev := hpb (by omega)
    by_cases hn : s.historyIndex < (s.history.length : Int) - 1
    · obtain ⟨f, hf, hnext⟩ := hnm hn
      simp [hprev, hnext, getItems, if_neg hp, if_pos hn, hf]
    · have hnext := hnb (by omega)
      simp [hprev, hnext, getItems, if_neg hp, if_neg hn]

theorem previous_next_preserve_items_witness :
    ((previous (init ([7] : List Nat) none)).map (fun p => getItems p.1)
        = some (getItems (init ([7] : List Nat) none)))
    ∧ ((next (init ([7] : List Nat) none)).map (fun p => getItems p.1)
        = some (getItems (init ([7] : List Nat) none)))
    ∧ ((previous (init ([7] : List Nat) none)).map (fun p => p.1.history)
        = some (init ([7] : List Nat) none).history)
    ∧ ((next (init ([7] : List Nat) none)).map (fun p => p.1.history)
        = some (init ([7] : List Nat) none).history)
    ∧ ((previous (init ([7] : List Nat) none)).map (fun p => p.1.historyIndex)
        = some (if 0 < (init ([7] : List Nat) none).historyIndex then
                  (init ([7] : List Nat) none).historyIndex - 1
                else (init ([7] : List Nat) none).historyIndex))
    ∧ ((next (init ([7] : List Nat) none)).map (fun p => p.1.historyIndex)
        = some (if (init ([7] : List Nat) none).historyIndex
                    < ((init ([7] : List Nat) none).history.length : Int) - 1 then
                  (init ([7] : List Nat) none).historyIndex + 1
                else (init ([7] : List Nat) none).historyIndex))
    ∧ ((previous (init ([7] : List Nat) none)).map (fun p => some p.2.1)
        = some (if 0 < (init ([7] : List Nat) none).historyIndex then
                  (entryAt (init ([7] : List Nat) none)
                    ((init ([7] : List Nat) none).historyIndex - 1)).map
                      (fun e => e.items)
                else some (init ([7] : List Nat) none).items))
    ∧ ((next (init ([7] : List Nat) none)).map (fun p => some p.2.1)
        = some (if (init ([7] : List Nat) none).historyIndex
                    < ((init ([7] : List Nat) none).history.length : Int) - 1 then
                  (entryAt (init ([7] : List Nat) none)
                    ((init ([7] : List Nat) none).historyIndex + 1)).map
                      (fun e => e.items)
                else some (init ([7] : List Nat) none).items)) :=
  previous_next_preserve_items (init [7] none) (by decide)

end MagicArray

namespace MagicArray

/-- Specification-side predicate for C6: the live items differ from the
snapshot at some position WITHIN the live items (a missing snapshot
position counts as a difference).  Length divergence where the live items
are a proper prefix of the snapshot is NOT covered — and indeed the source
misses it, see the counterexample. -/
def DiffersWithinLive {T : Type} (live snap : List T) : Prop :=
  ∃ i, i < live.length ∧ live.get? i ≠ snap.get? i

/-- C6 (amended): `hasChanges()` returns true exactly when the live items
differ from the snapshot of the current entry at some position below the
LIVE length; a live list that is a proper prefix of the snapshot (shrink
divergence) yields false, not true as pure element-wise-plus-length
comparison would demand. -/
theorem hasChanges_iff_diff_within_live {T : Type} [DecidableEq T]
    (s : MagicState T) (e : HistoryEntry T)
    (he : entryAt s s.historyIndex = some e) :
    hasChanges s = some true ↔ DiffersWithinLive s.items e.items := by
  simp only [hasChanges, he, Option.some.injEq, List.any_eq_true, List.mem_range,
    decide_eq_true_eq, DiffersWithinLive]

theorem hasChanges_iff_diff_within_live_witness :
    hasChanges (init ([1] : List Nat) none) = some true
      ↔ DiffersWithinLive (init ([1] : List Nat) none).items
          (HistoryEntry.mk [1] []).items :=
  hasChanges_iff_diff_within_live (init [1] none) (HistoryEntry.mk [1] []) rfl

/-- Reachable state for the C6 counterexample, built only from modelled
operations: on a fresh empty instance, `goTo(0)` aliases the live array
with entry 0, `saveCheckpoint` stores an empty-list checkpoint,
`batchPush([1])` grows both the live array and (through the alias) the
entry-0 snapshot without recording history, and `restoreCheckpoint`
resets the live items to the empty checkpoint copy.  Afterwards the live
items `[]` and the current snapshot `[1]` differ in length. -/
def shrinkDivergedState : Option (MagicState Nat) :=
  (goTo 0 (init ([] : List Nat) none)).bind (fun p =>
    (saveCheckpoint (some "a") p.1).bind (fun q =>
      (restoreCheckpoint "a" (batchPush [1] q.1)).map (fun r => r.1)))

/-- C6 counterexample: in the reachable state above, the live items have
length 0 while the snapshot of the current entry has length 1, yet
`hasChanges()` returns false — the claimed length-difference clause does
not hold in the code. -/
theorem hasChanges_misses_shrinking :
    shrinkDivergedState.map
      (fun s => (hasChanges s, s.items.length,
                 s.history.head?.map (fun e => e.items.length)))
      = some (some false, 0, some 1) :=
  rfl

end MagicArray

namespace MagicArray

theorem undoStepsGo_bounds :
    ∀ (fuel : Nat) (t idx : Int), 0 ≤ idx →
      0 ≤ undoStepsGo t idx fuel ∧ undoStepsGo t idx fuel ≤ idx := by
  intro fuel
  induction fuel with
  | zero => intro t idx h; exact ⟨h, le_refl _⟩
  | succ n ih =>
      intro t idx h
      rw [undoStepsGo]
      split
      · next hg =>
          have := ih (t - 1) (idx - 1) (by omega)
          omega
      · exact ⟨h, le_refl _⟩

theorem undoSteps_bounds (t idx : Int) (h : 0 ≤ idx) :
    0 ≤ undoSteps t idx ∧ undoSteps t idx ≤ idx :=
  undoStepsGo_bounds idx.toNat t idx h

theorem undoSteps_natCast (n : Nat) : undoSteps (n : Int) (n : Int) = 0 := by
  induction n with
  | zero => rw [undoSteps_eq]; simp
  | succ k ih =>
      rw [undoSteps_eq, if_pos (by constructor <;> omega)]
      have h1 : ((k + 1 : Nat) : Int) - 1 = (k : Int) := by push_cast; ring
      rw [h1]
      exact ih

theorem redoSteps_add (n : Nat) :
    ∀ idx : Int, redoSteps (n : Int) idx (idx + (n : Int)) = idx + (n : Int) := by
  induction n with
  | zero => intro idx; rw [redoSteps_eq]; simp
  | succ k ih =>
      intro idx
      rw [redoSteps_eq, if_pos (by constructor <;> omega)]
      have h1 : ((k + 1 : Nat) : Int) - 1 = (k : Int) := by push_cast; ring
      have h2 : idx + ((k + 1 : Nat) : Int) = (idx + 1) + (k : Int) := by push_cast; ring
      rw [h1, h2]
      exact ih (idx + 1)

theorem redoSteps_stop (t idx maxIdx : Int) (h : maxIdx ≤ idx) :
    redoSteps t idx maxIdx = idx := by
  rw [redoSteps_eq, if_neg (by omega)]

end MagicArray

namespace MagicArray

/-- A fresh instance followed by a sequence of wrapped mutations. -/
def run {T : Type} (I : List T) (vf : Option (T → Bool)) (ms : List (Mutation T)) :
    MagicState T :=
  ms.foldl (fun s m => applyWrapped m s) (init I vf)

/-- Invariant of `run` after `k` wrapped mutations on a fresh instance:
`k+1` entries, cursor on the last one, no aliasing, the first entry still
holds the initial items, the last entry snapshots the live items. -/
def RunInv {T : Type} (I : List T) (k : Nat) (s : MagicState T) : Prop :=
  s.history.length = k + 1
  ∧ s.historyIndex = (k : Int)
  ∧ s.liveAlias = none
  ∧ s.history.head? = some { items := I, checkpoints := [] }
  ∧ s.history.getLast? = some { items := s.items, checkpoints := [] }

theorem runInv_step {T : Type} (I : List T) (k : Nat) (s : MagicState T)
    (m : Mutation T) (h : RunInv I k s) : RunInv I (k + 1) (applyWrapped m s) := by
  obtain ⟨hlen, hidx, halias, hhead, hlast⟩ := h
  have hraw_hist : (applyRaw m s).history = s.history := by
    simp [applyRaw, writeThrough, halias]
  have hraw_idx : (applyRaw m s).historyIndex = s.historyIndex := rfl
  have hraw_alias : (applyRaw m s).liveAlias = s.liveAlias := rfl
  have h0 : (0:Int) ≤ (applyRaw m s).historyIndex := by rw [hraw_idx, hidx]; omega
  obtain ⟨hh, hit, hi⟩ := updateHistory_spec (applyRaw m s) h0
  have htn : ((applyRaw m s).historyIndex + 1).toNat = k + 1 := by
    rw [hraw_idx, hidx]; omega
  have htake : (applyRaw m s).history.take (k + 1) = s.history := by
    rw [hraw_hist]
    exact List.take_of_length_le (by omega)
  have hh2 : (applyWrapped m s).history
      = s.history ++ [{ items := (applyRaw m s).items, checkpoints := [] }] := by
    show (updateHistory (applyRaw m s)).history = _
    rw [hh, htn, htake]
  have hlen2 : (applyWrapped m s).history.length = (k + 1) + 1 := by
    rw [hh2]
    simp [hlen]
  have hit2 : (applyWrapped m s).items = (applyRaw m s).items := hit
  refine ⟨hlen2, ?_, ?_, ?_, ?_⟩
  · have hi2 : (applyWrapped m s).historyIndex
        = ((applyWrapped m s).history.length : Int) - 1 := hi
    rw [hi2, hlen2]
    push_cast
    ring
  · show (updateHistory (applyRaw m s)).liveAlias = none
    simp [updateHistory, hraw_alias, halias]
  · rw [hh2, List.head?_append, hhead]
    rfl
  · rw [hh2, List.getLast?_concat, hit2]

theorem run_inv_aux {T : Type} (I : List T) :
    ∀ (ms : List (Mutation T)) (s : MagicState T) (k : Nat), RunInv I k s →
      RunInv I (k + ms.length) (ms.foldl (fun s m => applyWrapped m s) s) := by
  intro ms
  induction ms with
  | nil => intro s k h; simpa using h
  | cons m ms ih =>
      intro s k h
      have h2 := ih (applyWrapped m s) (k + 1) (runInv_step I k s m h)
      have harith : k + 1 + ms.length = k + (m :: ms).length := by
        simp [List.length_cons]; omega
      rw [harith] at h2
      simpa using h2

theorem run_inv {T : Type} (I : List T) (vf : Option (T → Bool))
    (ms : List (Mutation T)) : RunInv I ms.length (run I vf ms) := by
  have hinit : RunInv I 0 (init I vf) := ⟨rfl, rfl, rfl, rfl, rfl⟩
  have := run_inv_aux I ms (init I vf) 0 hinit
  simpa [run] using this

/-- C3: on a fresh instance with initial items `I`, after any sequence of
`n` wrapped (history-recorded) mutations, `undo(n)` brings the live items
back to `I`, and a following `redo(n)` brings them back to the state after
the last mutation. -/
theorem undo_redo_inverse {T : Type} (I : List T) (vf : Option (T → Bool))
    (ms : List (Mutation T)) :
    (undo (ms.length : Int) (run I vf ms)).map (fun p => p.1.items) = some I
    ∧ ((undo (ms.length : Int) (run I vf ms)).bind
        (fun p => redo (ms.length : Int) p.1)).map (fun p => p.1.items)
        = some (run I vf ms).items := by
  obtain ⟨hlen, hidx, -, hhead, hlast⟩ := run_inv I vf ms
  have hi0 : undoSteps (ms.length : Int) (run I vf ms).historyIndex = 0 := by
    rw [hidx]; exact undoSteps_natCast ms.length
  have hent : entryAt (run I vf ms) 0
      = some { items := I, checkpoints := [] } := by
    unfold entryAt
    rw [if_neg (by omega)]
    show (run I vf ms).history.get? ((0:Int).toNat) = _
    rw [show ((0:Int)).toNat = 0 from rfl, List.get?_zero, hhead]
  have hundo : undo (ms.length : Int) (run I vf ms)
      = some ({ items := I
                history := (run I vf ms).history
                historyIndex := 0
                validationFn := (run I vf ms).validationFn
                liveAlias := none }, ["undo"]) := by
    simp only [undo, hi0, hent]
  refine ⟨?_, ?_⟩
  · rw [hundo]
    rfl
  · rw [hundo]
    show (redo (ms.length : Int)
        { items := I
          history := (run I vf ms).history
          historyIndex := 0
          validationFn := (run I vf ms).validationFn
          liveAlias := none }).map (fun p => p.1.items)
      = some (run I vf ms).items
    have hmax2 : ((run I vf ms).history.length : Int) - 1 = (ms.length : Int) := by
      rw [hlen]
      push_cast
      ring
    have hsteps : redoSteps (ms.length : Int) (0:Int) ((ms.length : Int))
        = (ms.length : Int) := by
      have := redoSteps_add ms.length 0
      simpa using this
    have hgetn : entryAt ({ items := I
                            history := (run I vf ms).history
                            historyIndex := 0
                            validationFn := (run I vf ms).validationFn
                            liveAlias := none } : MagicState T) (ms.length : Int)
        = some { items := (run I vf ms).items, checkpoints := [] } := by
      unfold entryAt
      rw [if_neg (by omega)]
      show (run I vf ms).history.get? (((ms.length : Int)).toNat) = _
      rw [Int.toNat_natCast]
      have hg : (run I vf ms).history.getLast?
          = (run I vf ms).history.get? ((run I vf ms).history.length - 1) :=
        List.getLast?_eq_get? _
      rw [hlast, hlen] at hg
      simpa using hg.symm
    simp only [redo, hmax2, hsteps, hgetn]
    rfl

end MagicArray

namespace MagicArray

/-- Right after any wrapped mutation (from an unaliased state), the cursor
sits on the last entry whose snapshot equals the live items, so any `redo`
stays put and leaves the live items unchanged; the entry count collapses
to cursor-before-the-mutation plus two. -/
theorem redo_after_wrapped {T : Type} (m : Mutation T) (t : Int) (w : MagicState T)
    (halias : w.liveAlias = none) (h0 : 0 ≤ w.historyIndex)
    (hlt : w.historyIndex < (w.history.length : Int)) :
    (redo t (applyWrapped m w)).map (fun q => q.1.items)
        = some (applyWrapped m w).items
    ∧ ((applyWrapped m w).history.length : Int) = w.historyIndex + 2 := by
  have hraw_hist : (applyRaw m w).history = w.history := by
    simp [applyRaw, writeThrough, halias]
  have hraw_idx : (applyRaw m w).historyIndex = w.historyIndex := rfl
  obtain ⟨hh, hit, hi⟩ := updateHistory_spec (applyRaw m w) (by rw [hraw_idx]; exact h0)
  have hh2 : (applyWrapped m w).history
      = w.history.take (w.historyIndex + 1).toNat
          ++ [{ items := (applyRaw m w).items, checkpoints := [] }] := by
    show (updateHistory (applyRaw m w)).history = _
    rw [hh, hraw_hist, hraw_idx]
  have hlen2 : (applyWrapped m w).history.length = (w.historyIndex + 1).toNat + 1 := by
    rw [hh2]
    simp only [List.length_append, List.length_take, List.length_cons, List.length_nil]
    omega
  have hlen2i : ((applyWrapped m w).history.length : Int) = w.historyIndex + 2 := by
    rw [hlen2]
    omega
  refine ⟨?_, hlen2i⟩
  have hi2 : (applyWrapped m w).historyIndex
      = ((applyWrapped m w).history.length : Int) - 1 := hi
  have hit2 : (applyWrapped m w).items = (applyRaw m w).items := hit
  have hstop : redoSteps t (applyWrapped m w).historyIndex
      (((applyWrapped m w).history.length : Int) - 1)
      = (applyWrapped m w).historyIndex :=
    redoSteps_stop _ _ _ (by omega)
  have hgl : (applyWrapped m w).history.getLast?
      = some { items := (applyRaw m w).items, checkpoints := [] } := by
    rw [hh2]
    exact List.getLast?_concat _
  have hget2 : (applyWrapped m w).history.get? ((applyWrapped m w).history.length - 1)
      = some { items := (applyRaw m w).items, checkpoints := [] } := by
    rw [← List.getLast?_eq_get?]
    exact hgl
  have hent2 : entryAt (applyWrapped m w) (applyWrapped m w).historyIndex
      = some { items := (applyRaw m w).items, checkpoints := [] } := by
    unfold entryAt
    rw [if_neg (by omega)]
    have htn : (applyWrapped m w).historyIndex.toNat
        = (applyWrapped m w).history.length - 1 := by omega
    rw [htn, hget2]
  have hredo : redo t (applyWrapped m w)
      = some ({ items := (applyRaw m w).items
                history := (applyWrapped m w).history
                historyIndex := (applyWrapped m w).historyIndex
                validationFn := (applyWrapped m w).validationFn
                liveAlias := none }, ["redo"]) := by
    simp only [redo, hstop, hent2]
  rw [hredo, hit2]
  rfl

/-- C7: from any invariant-respecting state with at least `k+1` entries,
`undo(k)` succeeds, and after any new wrapped mutation a `redo` (any
count) leaves the live items unchanged; the history has shrunk to the
post-undo cursor plus two entries, so the discarded future is gone. -/
theorem redo_after_truncating_mutation {T : Type} (s : MagicState T) (hWF : WF s)
    (k t : Int) (hk : 1 ≤ k) (hkn : k + 1 ≤ (s.history.length : Int))
    (m : Mutation T) :
    (undo k s).isSome = true
    ∧ ((undo k s).bind (fun p => redo t (applyWrapped m p.1))).map
        (fun q => q.1.items)
        = (undo k s).map (fun p => (applyWrapped m p.1).items)
    ∧ (undo k s).map (fun p => ((applyWrapped m p.1).history.length : Int))
        = (undo k s).map (fun p => p.1.historyIndex + 2) := by
  obtain ⟨h0, h1⟩ := hWF
  obtain ⟨hges, hles⟩ := undoSteps_bounds k s.historyIndex h0
  obtain ⟨e, hent, -⟩ := entryAt_eq_some s (undoSteps k s.historyIndex) hges (by omega)
  have hundo : undo k s
      = some ({ items := e.items
                history := s.history
                historyIndex := undoSteps k s.historyIndex
                validationFn := s.validationFn
                liveAlias := none }, ["undo"]) := by
    simp only [undo, hent]
  obtain ⟨hr1, hr2⟩ := redo_after_wrapped m t
    ({ items := e.items
       history := s.history
       historyIndex := undoSteps k s.historyIndex
       validationFn := s.validationFn
       liveAlias := none } : MagicState T) rfl hges
    (by show undoSteps k s.historyIndex < (s.history.length : Int); omega)
  refine ⟨?_, ?_, ?_⟩
  · rw [hundo]
    rfl
  · rw [hundo]
    exact hr1
  · rw [hundo]
    exact congrArg some hr2

theorem redo_after_truncating_mutation_witness :
    (undo 1 (applyWrapped (Mutation.push [2]) (init ([1] : List Nat) none))).isSome
        = true
    ∧ ((undo 1 (applyWrapped (Mutation.push [2]) (init ([1] : List Nat) none))).bind
        (fun p => redo 1 (applyWrapped Mutation.pop p.1))).map (fun q => q.1.items)
        = (undo 1 (applyWrapped (Mutation.push [2]) (init ([1] : List Nat) none))).map
            (fun p => (applyWrapped Mutation.pop p.1).items)
    ∧ (undo 1 (applyWrapped (Mutation.push [2]) (init ([1] : List Nat) none))).map
        (fun p => ((applyWrapped Mutation.pop p.1).history.length : Int))
        = (undo 1 (applyWrapped (Mutation.push [2]) (init ([1] : List Nat) none))).map
            (fun p => p.1.historyIndex + 2) :=
  redo_after_truncating_mutation
    (applyWrapped (Mutation.push [2]) (init ([1] : List Nat) none)) (by decide)
    1 1 (by decide) (by decide) Mutation.pop

end MagicArray
